import Mathlib

/-!
Shallow embedding of the `walk` package of sfomuseum/go-github-walk
(the revision with the `wait_on_reset` option).

The traversal engine `GitHubWalker.WalkURI`, its sequential helper
`walkDirectoryContents` and its concurrent helper
`walkDirectoryContentsConcurrently` are embedded as fuel-indexed
executable functions.  Effects are made observable as an event trace:
every `<-gw.api_throttle` receive is an `Ev.acquire` event, every call
`client.Repositories.GetContents(ctx, gw.owner, gw.repo, uri, nil)` is an
`Ev.fetch owner repo uri opts` event (recording the full request, with
`opts = none` for Go's `nil`), every `<-time.After((reset-now)*Second)`
is an `Ev.sleepUntil reset` event (the code suspends until the reset
instant), and every callback invocation is an `Ev.callback c` event.

The GitHub API is the environment: `Env.fetch` maps a request plus a
per-path attempt counter (so a rate-limited path may later succeed when
refetched) to the quadruple `(file_contents, dir_contents, rsp, err)`
returned by `GetContents`; `Env.cb` is the caller callback; and
`Env.cancelled` is the state of `ctx.Done()` (modelled as constant for
one walk).  Unbounded recursion (retry after rate-limit reset, descent
through directories fetched by path) is made total with a fuel
parameter; `none` means the fuel ran out.
-/

namespace GoGithubWalk

/-- Go struct `github.RepositoryContentGetOptions`; the walker always passes
`nil` (`none`) for it, but it is part of every fetch request. -/
structure RepositoryContentGetOptions where
  ref : String
deriving DecidableEq, Repr

/-- Go struct `github.RepositoryContent`, restricted to the one field the
walker reads (`*e.Path`). -/
structure RepositoryContent where
  path : String
deriving DecidableEq, Repr

/-- Go error values as the walker observes them.  `rateLimit` is
`*github.RateLimitError` (carrying the reset instant of its `Rate` field);
`base` is any other error.  `wrapFetch` is the wrap
`fmt.Errorf("Failed to get contents for %s, %w", uri, err)` (it records the
path) and `wrapCallback` is `fmt.Errorf("Walk callback func failed, %w", err)`
(a fixed message: it records no path). -/
inductive GoErr where
  | rateLimit (reset : Int)
  | base (msg : String)
  | wrapFetch (path : String) (inner : GoErr)
  | wrapCallback (inner : GoErr)
deriving DecidableEq, Repr

/-- The type assertion `err.(*github.RateLimitError)` in `WalkURI`. -/
def GoErr.isRateLimitError : GoErr → Bool
  | .rateLimit _ => true
  | _ => false

/-- The paths the traversal engine itself attached while wrapping an error:
`wrapFetch` contributes its path, `wrapCallback` contributes nothing. -/
def GoErr.wrapMentions : GoErr → List String
  | .rateLimit _ => []
  | .base _ => []
  | .wrapFetch p e => p :: e.wrapMentions
  | .wrapCallback e => e.wrapMentions

/-- The rendered error string, using the two verbatim format strings of the
source (`fmt.Errorf` with `%w` appends the inner error's message). -/
def GoErr.msg : GoErr → String
  | .rateLimit _ => "API rate limit exceeded"
  | .base m => m
  | .wrapFetch p e => "Failed to get contents for " ++ p ++ ", " ++ e.msg
  | .wrapCallback e => "Walk callback func failed, " ++ e.msg

/-- The quadruple returned by `GetContents`: `file_contents`, `dir_contents`,
the response (of which the code only reads `rsp.Rate.Reset.Unix()`, kept here
as `rateReset`) and the error. -/
structure FetchResult where
  file_contents : Option RepositoryContent
  dir_contents : Option (List RepositoryContent)
  rateReset : Int
  err : Option GoErr
deriving DecidableEq, Repr

/-- Go struct `GitHubWalker` (the `client` and `api_throttle` handles live in
the environment / the event trace). -/
structure GitHubWalker where
  owner : String
  repo : String
  branch : String
  concurrent : Bool
  wait_on_reset : Bool
deriving DecidableEq, Repr

/-- One observable event of a walk. -/
inductive Ev where
  | acquire
  | fetch (owner repo path : String) (opts : Option RepositoryContentGetOptions)
  | sleepUntil (reset : Int)
  | callback (c : RepositoryContent)
deriving DecidableEq, Repr

/-- The environment of a walk: the GitHub API (`fetch`, taking the full
request `owner repo path opts` plus the attempt counter for that path), the
caller callback (`cb`, returning `some e` when the Go callback returns a
non-nil error) and the state of the cancellation context. -/
structure Env where
  fetch : String → String → String → Option RepositoryContentGetOptions → Nat → FetchResult
  cb : RepositoryContent → Option GoErr
  cancelled : Bool

/-- One arrival on the aggregation channels of
`walkDirectoryContentsConcurrently`: a `done_ch` receive or an `err_ch`
receive. -/
inductive CEvent where
  | done
  | errE (e : GoErr)
deriving DecidableEq, Repr

/-- Shallow embedding of the collection loop
`for remaining > 0 { select { case <-done_ch: remaining -= 1; case err := <-err_ch: return err; default: } }`
of `walkDirectoryContentsConcurrently`.  The list is the order in which
channel receives become available; the busy-spinning `default` branch only
re-runs the loop and is not an event.  `some res` is the loop returning
(`res = none` is Go's `return nil`); `none` means the loop never receives
enough events and spins forever. -/
def drain (evs : List CEvent) (n : Nat) : Option (Option GoErr) :=
  match n, evs with
  | 0, _ => some none
  | _ + 1, [] => none
  | m + 1, CEvent.done :: rest => drain rest m
  | _ + 1, CEvent.errE e :: _ => some (some e)
termination_by structural n

lemma drain_zero (evs : List CEvent) : drain evs 0 = some none := rfl

/-- The event a finished child task makes available: a successful
`gw.WalkURI` call only signals `done_ch` (via the deferred send); a failed
one first makes its error available on `err_ch`. -/
def childEvent : Option GoErr → CEvent
  | none => CEvent.done
  | some e => CEvent.errE e

mutual

/-- Shallow embedding of `GitHubWalker.WalkURI` (src lines 133-202).  In
source order: receive from `gw.api_throttle`; check `ctx.Done()` (return nil
when signalled); call `GetContents(ctx, gw.owner, gw.repo, uri, nil)`; on a
rate-limit error with `wait_on_reset` sleep until `rsp.Rate.Reset.Unix()` and
retry the same `uri` (next attempt); on any other error return
`fmt.Errorf("Failed to get contents for %s, %w", uri, err)`; on a file invoke
the callback (wrapping its error with the fixed message); on a directory
dispatch sequentially or concurrently; otherwise return nil.  Returns the
walk's error result together with its event trace, or `none` when the fuel
runs out. -/
def walkURI (gw : GitHubWalker) (env : Env) :
    Nat → String → Nat → Option (Option GoErr × List Ev)
  | 0, _, _ => none
  | fuel + 1, uri, attempt =>
    if env.cancelled then
      some (none, [Ev.acquire])
    else
      let r := env.fetch gw.owner gw.repo uri none attempt
      let tr := [Ev.acquire, Ev.fetch gw.owner gw.repo uri none]
      match r.err with
      | some e =>
        if e.isRateLimitError && gw.wait_on_reset then
          match walkURI gw env fuel uri (attempt + 1) with
          | none => none
          | some (res, tr2) => some (res, tr ++ Ev.sleepUntil r.rateReset :: tr2)
        else
          some (some (GoErr.wrapFetch uri e), tr)
      | none =>
        match r.file_contents with
        | some fc =>
          match env.cb fc with
          | some e => some (some (GoErr.wrapCallback e), tr ++ [Ev.callback fc])
          | none => some (none, tr ++ [Ev.callback fc])
        | none =>
          match r.dir_contents with
          | some contents =>
            if gw.concurrent then
              match walkDirectoryContentsConcurrently gw env fuel contents with
              | none => none
              | some (res, tr2) => some (res, tr ++ tr2)
            else
              match walkDirectoryContents gw env fuel contents with
              | none => none
              | some (res, tr2) => some (res, tr ++ tr2)
          | none => some (none, tr)
termination_by fuel _ _ => (fuel, 0)
decreasing_by
  all_goals simp_wf
  all_goals exact Prod.Lex.left _ _ (Nat.lt_succ_self _)

/-- Shallow embedding of `walkDirectoryContents` (src lines 205-224): iterate
the children in order; before each, check `ctx.Done()` (return nil when
signalled); recurse via `WalkURI`; return the first child error, abandoning
the remaining children. -/
def walkDirectoryContents (gw : GitHubWalker) (env : Env) :
    Nat → List RepositoryContent → Option (Option GoErr × List Ev)
  | _, [] => some (none, [])
  | fuel, e :: rest =>
    if env.cancelled then
      some (none, [])
    else
      match walkURI gw env fuel e.path 0 with
      | none => none
      | some (some err, tr) => some (some err, tr)
      | some (none, tr) =>
        match walkDirectoryContents gw env fuel rest with
        | none => none
        | some (res, tr2) => some (res, tr ++ tr2)
termination_by fuel contents => (fuel, contents.length + 1)
decreasing_by
  all_goals simp_wf
  all_goals exact Prod.Lex.right _ (by omega)

/-- The spawn loop of `walkDirectoryContentsConcurrently` (src lines
238-260): one goroutine per child, each running `gw.WalkURI` and signalling
its outcome on the shared channels.  Produces the per-child channel events in
spawn order together with the children's combined trace. -/
def spawnChildren (gw : GitHubWalker) (env : Env) :
    Nat → List RepositoryContent → Option (List CEvent × List Ev)
  | _, [] => some ([], [])
  | fuel, e :: rest =>
    match walkURI gw env fuel e.path 0 with
    | none => none
    | some (res, tr) =>
      match spawnChildren gw env fuel rest with
      | none => none
      | some (evs, tr2) => some (childEvent res :: evs, tr ++ tr2)
termination_by fuel contents => (fuel, contents.length + 1)
decreasing_by
  all_goals simp_wf
  all_goals exact Prod.Lex.right _ (by omega)

/-- Shallow embedding of `walkDirectoryContentsConcurrently` (src lines
228-274): check `ctx.Done()` before spawning (with a constant cancellation
flag the per-spawn check collapses to one check), spawn one task per child,
then run the collection loop with `remaining = len(contents)` over the
children's events. -/
def walkDirectoryContentsConcurrently (gw : GitHubWalker) (env : Env)
    (fuel : Nat) (contents : List RepositoryContent) :
    Option (Option GoErr × List Ev) :=
  if env.cancelled then
    some (none, [])
  else
    match spawnChildren gw env fuel contents with
    | none => none
    | some (evs, tr) =>
      match drain evs contents.length with
      | none => none
      | some res => some (res, tr)
termination_by (fuel, contents.length + 2)
decreasing_by
  all_goals exact Prod.Lex.right _ (by omega)

end

/-- The `GetContents` result for a path that is a file. -/
def fileFR (c : RepositoryContent) : FetchResult :=
  { file_contents := some c, dir_contents := none, rateReset := 0, err := none }

/-- The `GetContents` result for a path that is a directory with the given
children (in the order the API returned them). -/
def dirFR (paths : List String) : FetchResult :=
  { file_contents := none, dir_contents := some (paths.map (fun p => RepositoryContent.mk p)),
    rateReset := 0, err := none }

/-- The `GetContents` result for a fetch failing with error `e` while the
response reports rate reset instant `reset`. -/
def errFR (reset : Int) (e : GoErr) : FetchResult :=
  { file_contents := none, dir_contents := none, rateReset := reset, err := some e }

lemma drain_all_done (n : Nat) (extra : List CEvent) :
    drain (List.replicate n CEvent.done ++ extra) n = some none := by
  induction n with
  | zero => exact drain_zero _
  | succ m ih => simpa [drain] using ih

lemma drain_waiting (front : List CEvent) (n : Nat)
    (hall : ∀ x ∈ front, x = CEvent.done) (hlt : front.length < n) :
    drain front n = none := by
  induction front generalizing n with
  | nil =>
    obtain ⟨m, rfl⟩ : ∃ m, n = m + 1 := ⟨n - 1, by omega⟩
    rfl
  | cons d ds ih =>
    obtain rfl : d = CEvent.done := hall d (by simp)
    obtain ⟨m, rfl⟩ : ∃ m, n = m + 1 := ⟨n - 1, by omega⟩
    simp only [drain]
    exact ih m (fun x hx => hall x (by simp [hx])) (by simp at hlt; omega)

lemma drain_first_error (front rest : List CEvent) (e : GoErr) (n : Nat)
    (hall : ∀ x ∈ front, x = CEvent.done) (hlt : front.length < n) :
    drain (front ++ CEvent.errE e :: rest) n = some (some e) := by
  induction front generalizing n with
  | nil =>
    obtain ⟨m, rfl⟩ : ∃ m, n = m + 1 := ⟨n - 1, by omega⟩
    rfl
  | cons d ds ih =>
    obtain rfl : d = CEvent.done := hall d (by simp)
    obtain ⟨m, rfl⟩ : ∃ m, n = m + 1 := ⟨n - 1, by omega⟩
    simp only [List.cons_append, drain]
    exact ih m (fun x hx => hall x (by simp [hx])) (by simp at hlt; omega)

/-- Claim C2: in concurrent mode the parent's collection loop, run with
`remaining` equal to the number of children, (i) returns nil exactly after
receiving one completion signal per child when all children succeed (events
beyond the `n`-th are never received), (ii) keeps waiting as long as fewer
completion signals than children have arrived and no error has, and (iii)
returns the first reported child error immediately, regardless of (without
waiting for) all events that would arrive afterwards. -/
theorem C2_concurrent_join (n : Nat) (e : GoErr) (front rest extra : List CEvent)
    (hall : ∀ x ∈ front, x = CEvent.done) (hlt : front.length < n) :
    drain (List.replicate n CEvent.done ++ extra) n = some none ∧
    drain front n = none ∧
    drain (front ++ CEvent.errE e :: rest) n = some (some e) :=
  ⟨drain_all_done n extra, drain_waiting front n hall hlt,
    drain_first_error front rest e n hall hlt⟩

/-- Claim C2, witness: two children; after one completion signal the parent
is still waiting, an error as second arrival is returned immediately even
with a further arrival pending, and two completion signals yield nil. -/
theorem C2_concurrent_join_witness :
    drain (List.replicate 2 CEvent.done ++ [CEvent.done]) 2 = some none ∧
    drain [CEvent.done] 2 = none ∧
    drain ([CEvent.done] ++ CEvent.errE (GoErr.base "boom") :: [CEvent.done]) 2 =
      some (some (GoErr.base "boom")) :=
  C2_concurrent_join 2 (GoErr.base "boom") [CEvent.done] [CEvent.done] [CEvent.done]
    (by decide) (by decide)

/-- A concrete sequential walker for witnesses. -/
def gwEx : GitHubWalker :=
  { owner := "o", repo := "r", branch := "main", concurrent := false, wait_on_reset := false }

/-- The walker `gwEx` with `wait_on_reset` enabled. -/
def gwWait : GitHubWalker :=
  { owner := "o", repo := "r", branch := "main", concurrent := false, wait_on_reset := true }

/-- An environment whose cancellation context is already signalled. -/
def envCancelled : Env :=
  { fetch := fun _ _ p _ _ => fileFR (RepositoryContent.mk p)
    cb := fun _ => none
    cancelled := true }

/-- Claim C10: when a fetch succeeds but reports neither file contents nor
directory contents, `WalkURI` falls through to its final `return nil`: it
returns a nil error after that single fetch, with zero callback invocations
(the complete trace is one permit acquisition and one fetch). -/
theorem C10_neither_file_nor_dir (gw : GitHubWalker) (env : Env) (fuel : Nat)
    (uri : String) (k : Nat) (R : Int)
    (hc : env.cancelled = false)
    (hfetch : env.fetch gw.owner gw.repo uri none k =
      { file_contents := none, dir_contents := none, rateReset := R, err := none }) :
    walkURI gw env (fuel + 1) uri k =
      some (none, [Ev.acquire, Ev.fetch gw.owner gw.repo uri none]) := by
  simp [walkURI, hc, hfetch]

/-- An environment whose fetches succeed with neither file nor directory
contents populated. -/
def envNeither : Env :=
  { fetch := fun _ _ _ _ _ =>
      { file_contents := none, dir_contents := none, rateReset := 0, err := none }
    cb := fun _ => none
    cancelled := false }

/-- Claim C10, witness. -/
theorem C10_neither_file_nor_dir_witness :
    walkURI gwEx envNeither 1 "p" 0 =
      some (none, [Ev.acquire, Ev.fetch "o" "r" "p" none]) :=
  C10_neither_file_nor_dir gwEx envNeither 0 "p" 0 0 rfl rfl

/-- Claim C5, counterexample: with the cancellation context already signalled
at entry, `WalkURI` does return a nil error with zero callback invocations
and zero fetches, but its complete event trace is `[Ev.acquire]`: the
rate-limit permit receive `<-gw.api_throttle` (src line 139) happens before
the cancellation check (src lines 141-146), so the claimed "before acquiring
a rate-limit permit" is false — one permit is acquired. -/
theorem C5_counterexample :
    walkURI gwEx envCancelled 1 "p" 0 = some (none, [Ev.acquire]) ∧
    Ev.acquire ∈ [Ev.acquire] ∧
    envCancelled.cancelled = true := by
  refine ⟨?_, by simp, rfl⟩
  simp [walkURI, envCancelled]

/-- Claim C5 (amended): for every call to `WalkURI` whose cancellation
context is already signalled at entry, the call returns a nil error with the
callback invoked zero times and no fetch issued — a cancelled walk is never
reported as an error — but only after acquiring one rate-limit permit, since
the permit receive precedes the cancellation check in the code. -/
theorem C5_cancelled_at_entry (gw : GitHubWalker) (env : Env) (fuel : Nat)
    (uri : String) (k : Nat) (hc : env.cancelled = true) :
    walkURI gw env (fuel + 1) uri k = some (none, [Ev.acquire]) := by
  simp [walkURI, hc]

/-- Claim C5 (amended), witness. -/
theorem C5_cancelled_at_entry_witness :
    walkURI gwEx envCancelled 3 "p" 7 = some (none, [Ev.acquire]) :=
  C5_cancelled_at_entry gwEx envCancelled 2 "p" 7 rfl

/-- Claim C4: a fetch failure that is not a rate-limit error, or is a
rate-limit error while `wait_on_reset` is disabled, makes `WalkURI` return
the error wrapped with the path
(`fmt.Errorf("Failed to get contents for %s, %w", uri, err)`) as the fatal
result of this branch; the complete trace contains exactly one fetch of the
path, so the path is never retried. -/
theorem C4_fetch_error_fatal (gw : GitHubWalker) (env : Env) (fuel : Nat)
    (uri : String) (k : Nat) (R : Int) (e : GoErr)
    (hc : env.cancelled = false)
    (hfetch : env.fetch gw.owner gw.repo uri none k = errFR R e)
    (h : e.isRateLimitError = false ∨ gw.wait_on_reset = false) :
    walkURI gw env (fuel + 1) uri k =
      some (some (GoErr.wrapFetch uri e),
        [Ev.acquire, Ev.fetch gw.owner gw.repo uri none]) := by
  rcases h with h | h <;> simp [walkURI, hc, hfetch, errFR, h]

/-- An environment whose fetches always fail with a rate-limit error whose
reset instant is 42. -/
def envRLFail : Env :=
  { fetch := fun _ _ _ _ _ => errFR 42 (GoErr.rateLimit 42)
    cb := fun _ => none
    cancelled := false }

/-- Claim C4, witness: a rate-limit failure with `wait_on_reset` disabled is
returned wrapped, after a single fetch. -/
theorem C4_fetch_error_fatal_witness :
    walkURI gwEx envRLFail 1 "p" 0 =
      some (some (GoErr.wrapFetch "p" (GoErr.rateLimit 42)),
        [Ev.acquire, Ev.fetch "o" "r" "p" none]) :=
  C4_fetch_error_fatal gwEx envRLFail 0 "p" 0 42 (GoErr.rateLimit 42) rfl rfl
    (Or.inr rfl)

/-- Claim C3: when the fetch fails with a rate-limit error and
`wait_on_reset` is enabled, `WalkURI` sleeps until the reset instant reported
with the response and then re-runs the identical call (`gw.WalkURI(ctx, uri,
cb)`) on the same path at the next attempt, whatever the remaining fuel — the
retry is unbounded, recurring at every attempt for which the fetch is still
rate-limited.  Moreover the retry happens only for rate-limit errors: under
any environment whose fetch fails with a non-rate-limit error, even with
`wait_on_reset` enabled the walk returns the wrapped error after that single
fetch. -/
theorem C3_rate_limit_retry (gw : GitHubWalker) (env : Env) (fuel : Nat)
    (uri : String) (k : Nat) (R : Int)
    (hw : gw.wait_on_reset = true) (hc : env.cancelled = false)
    (hfetch : env.fetch gw.owner gw.repo uri none k = errFR R (GoErr.rateLimit R)) :
    (walkURI gw env (fuel + 1) uri k =
      match walkURI gw env fuel uri (k + 1) with
      | none => none
      | some (res, tr2) =>
        some (res, Ev.acquire :: Ev.fetch gw.owner gw.repo uri none ::
          Ev.sleepUntil R :: tr2)) ∧
    (∀ (env2 : Env) (e : GoErr), env2.cancelled = false →
      e.isRateLimitError = false →
      env2.fetch gw.owner gw.repo uri none k = errFR R e →
      walkURI gw env2 (fuel + 1) uri k =
        some (some (GoErr.wrapFetch uri e),
          [Ev.acquire, Ev.fetch gw.owner gw.repo uri none])) := by
  constructor
  · cases hwalk : walkURI gw env fuel uri (k + 1) with
    | none => simp [walkURI, hc, hfetch, errFR, GoErr.isRateLimitError, hw, hwalk]
    | some p =>
      obtain ⟨res, tr2⟩ := p
      simp [walkURI, hc, hfetch, errFR, GoErr.isRateLimitError, hw, hwalk]
  · intro env2 e hc2 he hfetch2
    simp [walkURI, hc2, hfetch2, errFR, he]

/-- An environment that is rate-limited on every path's first attempt and
serves the path as a file from the second attempt on. -/
def envRLOnce : Env :=
  { fetch := fun _ _ p _ k =>
      if k = 0 then errFR 42 (GoErr.rateLimit 42) else fileFR (RepositoryContent.mk p)
    cb := fun _ => none
    cancelled := false }

/-- Claim C3, witness: with `wait_on_reset` enabled, the rate-limited first
attempt sleeps until instant 42 and retries; the retry succeeds, so the whole
walk succeeds with the file reported once. -/
theorem C3_rate_limit_retry_witness :
    (walkURI gwWait envRLOnce 2 "p" 0 =
      match walkURI gwWait envRLOnce 1 "p" 1 with
      | none => none
      | some (res, tr2) =>
        some (res, Ev.acquire :: Ev.fetch "o" "r" "p" none ::
          Ev.sleepUntil 42 :: tr2)) ∧
    (∀ (env2 : Env) (e : GoErr), env2.cancelled = false →
      e.isRateLimitError = false →
      env2.fetch "o" "r" "p" none 0 = errFR 42 e →
      walkURI gwWait env2 2 "p" 0 =
        some (some (GoErr.wrapFetch "p" e),
          [Ev.acquire, Ev.fetch "o" "r" "p" none])) :=
  C3_rate_limit_retry gwWait envRLOnce 1 "p" 0 42 rfl rfl rfl

/-- Claim C7, counterexample: at path `f.txt`, with a callback failing with
the error `boom`, the branch result is
`fmt.Errorf("Walk callback func failed, %w", err)` — the wrap's format string
is fixed and attaches no path (`GoErr.wrapMentions` of the result is empty,
and the rendered message is `Walk callback func failed, boom`), refuting the
claimed wrapping "with path context". -/
theorem C7_counterexample :
    walkURI gwEx
      { fetch := fun _ _ p _ _ => fileFR (RepositoryContent.mk p)
        cb := fun _ => some (GoErr.base "boom")
        cancelled := false } 1 "f.txt" 0 =
      some (some (GoErr.wrapCallback (GoErr.base "boom")),
        [Ev.acquire, Ev.fetch "o" "r" "f.txt" none,
          Ev.callback (RepositoryContent.mk "f.txt")]) ∧
    GoErr.wrapMentions (GoErr.wrapCallback (GoErr.base "boom")) = [] ∧
    GoErr.msg (GoErr.wrapCallback (GoErr.base "boom")) =
      "Walk callback func failed, boom" := by
  refine ⟨?_, rfl, rfl⟩
  simp [walkURI, fileFR, gwEx]

/-- Claim C7 (amended): when the callback fails on a file node, `WalkURI`
wraps the error with the fixed message `Walk callback func failed` — without
path context: the wrap attaches no path — and propagates it as the fatal
result of the enclosing branch; a sequential directory walk whose child call
fails stops there, the remaining siblings contributing nothing. -/
theorem C7_callback_error_fatal (gw : GitHubWalker) (env : Env) (fuel : Nat)
    (uri : String) (k : Nat) (fc : RepositoryContent) (e : GoErr)
    (hc : env.cancelled = false)
    (hfetch : env.fetch gw.owner gw.repo uri none k = fileFR fc)
    (hcb : env.cb fc = some e) :
    walkURI gw env (fuel + 1) uri k =
      some (some (GoErr.wrapCallback e),
        [Ev.acquire, Ev.fetch gw.owner gw.repo uri none, Ev.callback fc]) ∧
    GoErr.wrapMentions (GoErr.wrapCallback e) = GoErr.wrapMentions e ∧
    (∀ (c : RepositoryContent) (rest : List RepositoryContent) (err : GoErr)
        (tr : List Ev) (n : Nat),
      walkURI gw env n c.path 0 = some (some err, tr) →
      walkDirectoryContents gw env n (c :: rest) = some (some err, tr)) := by
  refine ⟨by simp [walkURI, hc, hfetch, fileFR, hcb], rfl, ?_⟩
  intro c rest err tr n hwalk
  simp [walkDirectoryContents, hc, hwalk]

/-- An environment serving every path as a file, with a callback that always
fails with the error `boom`. -/
def envCbErr : Env :=
  { fetch := fun _ _ p _ _ => fileFR (RepositoryContent.mk p)
    cb := fun _ => some (GoErr.base "boom")
    cancelled := false }

/-- Claim C7 (amended), witness. -/
theorem C7_callback_error_fatal_witness :
    walkURI gwEx envCbErr 1 "f.txt" 0 =
      some (some (GoErr.wrapCallback (GoErr.base "boom")),
        [Ev.acquire, Ev.fetch "o" "r" "f.txt" none,
          Ev.callback (RepositoryContent.mk "f.txt")]) ∧
    GoErr.wrapMentions (GoErr.wrapCallback (GoErr.base "boom")) =
      GoErr.wrapMentions (GoErr.base "boom") ∧
    (∀ (c : RepositoryContent) (rest : List RepositoryContent) (err : GoErr)
        (tr : List Ev) (n : Nat),
      walkURI gwEx envCbErr n c.path 0 = some (some err, tr) →
      walkDirectoryContents gwEx envCbErr n (c :: rest) = some (some err, tr)) :=
  C7_callback_error_fatal gwEx envCbErr 0 "f.txt" 0
    (RepositoryContent.mk "f.txt") (GoErr.base "boom") rfl rfl rfl

/-- Claim C8: a directory whose child list is empty yields a nil error with
zero callback invocations, in sequential mode (`walkDirectoryContents` of
`[]`) and in concurrent mode alike (no task spawned, `remaining = 0`, the
collection loop exits at once): the complete trace is the permit acquisition
and the single fetch, whatever the walker's `concurrent` flag. -/
theorem C8_empty_directory (gw : GitHubWalker) (env : Env) (fuel : Nat)
    (uri : String) (k : Nat)
    (hc : env.cancelled = false)
    (hfetch : env.fetch gw.owner gw.repo uri none k = dirFR []) :
    walkURI gw env (fuel + 1) uri k =
      some (none, [Ev.acquire, Ev.fetch gw.owner gw.repo uri none]) := by
  cases hcc : gw.concurrent <;>
    simp [walkURI, hc, hfetch, dirFR, hcc, walkDirectoryContents,
      walkDirectoryContentsConcurrently, spawnChildren, drain]

/-- An environment serving every path as an empty directory. -/
def envEmptyDir : Env :=
  { fetch := fun _ _ _ _ _ => dirFR []
    cb := fun _ => none
    cancelled := false }

/-- Claim C8, witness, exercising the concurrent mode. -/
theorem C8_empty_directory_witness :
    walkURI { gwEx with concurrent := true } envEmptyDir 1 "d" 0 =
      some (none, [Ev.acquire, Ev.fetch "o" "r" "d" none]) :=
  C8_empty_directory { gwEx with concurrent := true } envEmptyDir 0 "d" 0 rfl rfl

/-- A repository tree: the object sequential traversal is specified
against.  A `dir`'s children are listed in the order the Content Fetcher
returns them. -/
inductive Tree where
  | file (path : String)
  | dir (path : String) (children : List Tree)
deriving Repr

/-- The path of a tree's root node. -/
def Tree.path : Tree → String
  | .file p => p
  | .dir p _ => p

/-- An induction principle for `Tree` giving the hypothesis on every child
of a directory. -/
lemma Tree.myInduction (P : Tree → Prop)
    (hfile : ∀ p, P (Tree.file p))
    (hdir : ∀ p cs, (∀ c ∈ cs, P c) → P (Tree.dir p cs)) :
    ∀ t, P t := by
  have H : ∀ (n : Nat) (t : Tree), sizeOf t ≤ n → P t := by
    intro n
    induction n with
    | zero =>
      intro t ht
      cases t <;> simp at ht
    | succ m ih =>
      intro t ht
      cases t with
      | file p => exact hfile p
      | dir p cs =>
        refine hdir p cs fun c hc => ih c ?_
        have h1 := List.sizeOf_lt_of_mem hc
        simp at ht
        omega
  exact fun t => H (sizeOf t) t le_rfl

/-- The fetch environment `env`, as seen by walker `gw`, serves exactly the
tree `t`: fetching the path of a node of `t` (at any attempt) classifies it
as that node, directories listing their children's paths in order. -/
inductive Represents (env : Env) (gw : GitHubWalker) : Tree → Prop where
  | file (p : String)
      (hf : ∀ k, env.fetch gw.owner gw.repo p none k = fileFR (RepositoryContent.mk p)) :
      Represents env gw (Tree.file p)
  | dir (p : String) (cs : List Tree)
      (hf : ∀ k, env.fetch gw.owner gw.repo p none k = dirFR (cs.map Tree.path))
      (hcs : ∀ c ∈ cs, Represents env gw c) :
      Represents env gw (Tree.dir p cs)

/-- Fuel sufficient to walk the tree: one step for this node, recursively
enough for every child. -/
inductive EnoughFuel : Nat → Tree → Prop where
  | file (n : Nat) (p : String) : EnoughFuel (n + 1) (Tree.file p)
  | dir (n : Nat) (p : String) (cs : List Tree)
      (hcs : ∀ c ∈ cs, EnoughFuel n c) : EnoughFuel (n + 1) (Tree.dir p cs)

mutual

/-- The event trace of a complete failure-free sequential walk of a tree. -/
def expTrace (gw : GitHubWalker) : Tree → List Ev
  | .file p => [Ev.acquire, Ev.fetch gw.owner gw.repo p none,
      Ev.callback (RepositoryContent.mk p)]
  | .dir p cs => Ev.acquire :: Ev.fetch gw.owner gw.repo p none :: expTraceList gw cs

/-- The concatenated traces of the walks of a list of sibling trees. -/
def expTraceList (gw : GitHubWalker) : List Tree → List Ev
  | [] => []
  | t :: ts => expTrace gw t ++ expTraceList gw ts

end

mutual

/-- All node paths of a tree in depth-first preorder. -/
def preorder : Tree → List String
  | .file p => [p]
  | .dir p cs => p :: preorderList cs

/-- All node paths of a list of sibling trees, depth-first. -/
def preorderList : List Tree → List String
  | [] => []
  | t :: ts => preorder t ++ preorderList ts

end

mutual

/-- The file paths of a tree in depth-first order, each directory's files in
the order the Content Fetcher listed the children. -/
def dfsFiles : Tree → List String
  | .file p => [p]
  | .dir _ cs => dfsFilesList cs

/-- The file paths of a list of sibling trees, depth-first. -/
def dfsFilesList : List Tree → List String
  | [] => []
  | t :: ts => dfsFiles t ++ dfsFilesList ts

end

/-- The fetched paths of a trace, in order. -/
def fetchPaths (tr : List Ev) : List String :=
  tr.filterMap fun ev => match ev with
    | Ev.fetch _ _ p _ => some p
    | _ => none

/-- The paths handed to the callback by a trace, in order. -/
def callbackPaths (tr : List Ev) : List String :=
  tr.filterMap fun ev => match ev with
    | Ev.callback c => some c.path
    | _ => none

lemma fetchPaths_expTrace (gw : GitHubWalker) :
    ∀ t, fetchPaths (expTrace gw t) = preorder t := by
  apply Tree.myInduction
  · intro p
    simp [expTrace, preorder, fetchPaths]
  · intro p cs ih
    have hl : ∀ l, (∀ c ∈ l, fetchPaths (expTrace gw c) = preorder c) →
        fetchPaths (expTraceList gw l) = preorderList l := by
      intro l
      induction l with
      | nil => intro _; simp [expTraceList, preorderList, fetchPaths]
      | cons c ts ihl =>
        intro hall
        have h1 := hall c (by simp)
        have h2 := ihl fun x hx => hall x (by simp [hx])
        simp only [expTraceList, preorderList, fetchPaths, List.filterMap_append] at *
        rw [h1, h2]
    have := hl cs ih
    simp only [expTrace, preorder, fetchPaths, List.filterMap_cons] at *
    simpa using this

lemma callbackPaths_expTrace (gw : GitHubWalker) :
    ∀ t, callbackPaths (expTrace gw t) = dfsFiles t := by
  apply Tree.myInduction
  · intro p
    simp [expTrace, dfsFiles, callbackPaths]
  · intro p cs ih
    have hl : ∀ l, (∀ c ∈ l, callbackPaths (expTrace gw c) = dfsFiles c) →
        callbackPaths (expTraceList gw l) = dfsFilesList l := by
      intro l
      induction l with
      | nil => intro _; simp [expTraceList, dfsFilesList, callbackPaths]
      | cons c ts ihl =>
        intro hall
        have h1 := hall c (by simp)
        have h2 := ihl fun x hx => hall x (by simp [hx])
        simp only [expTraceList, dfsFilesList, callbackPaths, List.filterMap_append] at *
        rw [h1, h2]
    have := hl cs ih
    simp only [expTrace, dfsFiles, callbackPaths, List.filterMap_cons] at *
    simpa using this

/-- Sequential traversal of a represented tree succeeds and produces exactly
the expected depth-first trace. -/
lemma walkURI_represents (gw : GitHubWalker) (env : Env)
    (hseq : gw.concurrent = false) (hc : env.cancelled = false)
    (hcb : ∀ c, env.cb c = none) :
    ∀ (fuel : Nat) (t : Tree), EnoughFuel fuel t → Represents env gw t →
      ∀ k, walkURI gw env fuel (Tree.path t) k = some (none, expTrace gw t) := by
  intro fuel t hfuel
  induction hfuel with
  | file n p =>
    intro hrep k
    cases hrep with
    | file _ hf =>
      simp [walkURI, hc, Tree.path, hf k, fileFR, hcb, expTrace]
  | dir n p cs hcs ih =>
    intro hrep k
    cases hrep with
    | dir _ _ hf hrepcs =>
      have hl : ∀ l, (∀ c ∈ l, Represents env gw c) →
          (∀ c ∈ l, ∀ j, walkURI gw env n (Tree.path c) j = some (none, expTrace gw c)) →
          walkDirectoryContents gw env n
            (List.map (fun c => RepositoryContent.mk (Tree.path c)) l) =
            some (none, expTraceList gw l) := by
        intro l
        induction l with
        | nil => intro _ _; simp [walkDirectoryContents, expTraceList]
        | cons c ts ihl =>
          intro hrepl hwalkl
          have h1 := hwalkl c (by simp) 0
          have h2 := ihl (fun x hx => hrepl x (by simp [hx]))
            (fun x hx => hwalkl x (by simp [hx]))
          simp [walkDirectoryContents, hc, h1, h2, expTraceList]
      have hwd := hl cs hrepcs fun c hcmem j => ih c hcmem (hrepcs c hcmem) j
      simp only [Tree.path]
      simp [walkURI, hc, hf k, dirFR, hseq]
      rw [show List.map ((fun p => RepositoryContent.mk p) ∘ Tree.path) cs =
            List.map (fun c => RepositoryContent.mk (Tree.path c)) cs from rfl]
      rw [hwd]
      simp [expTrace]

/-- Claim C1: for every repository tree served by the fetcher, sequential
traversal (`concurrent = false`) succeeds with a trace whose fetches are
exactly the tree's nodes in depth-first preorder — every file and every
directory fetched exactly once — and whose callback invocations are exactly
the tree's files in depth-first order, i.e. strictly in the order the
Content Fetcher returned each directory's children; moreover, when a child
errors, the sequential directory walk returns that error with only that
child's trace: the remaining siblings are never visited. -/
theorem C1_sequential_traversal (gw : GitHubWalker) (env : Env) (t : Tree)
    (fuel : Nat) (k : Nat)
    (hseq : gw.concurrent = false) (hc : env.cancelled = false)
    (hcb : ∀ c, env.cb c = none)
    (hfuel : EnoughFuel fuel t) (hrep : Represents env gw t) :
    walkURI gw env fuel (Tree.path t) k = some (none, expTrace gw t) ∧
    fetchPaths (expTrace gw t) = preorder t ∧
    callbackPaths (expTrace gw t) = dfsFiles t ∧
    (∀ (c : RepositoryContent) (rest : List RepositoryContent) (err : GoErr)
        (tr : List Ev) (n : Nat),
      walkURI gw env n c.path 0 = some (some err, tr) →
      walkDirectoryContents gw env n (c :: rest) = some (some err, tr)) := by
  refine ⟨walkURI_represents gw env hseq hc hcb fuel t hfuel hrep k,
    fetchPaths_expTrace gw t, callbackPaths_expTrace gw t, ?_⟩
  intro c rest err tr n hwalk
  simp [walkDirectoryContents, hc, hwalk]

/-- The spec's scenario tree: a root directory holding `a.txt` and a
subdirectory `dir` with `dir/b.txt` and `dir/c.txt`. -/
def treeT : Tree :=
  Tree.dir "root" [Tree.file "a.txt",
    Tree.dir "dir" [Tree.file "dir/b.txt", Tree.file "dir/c.txt"]]

/-- An environment serving exactly `treeT`. -/
def envT : Env :=
  { fetch := fun _ _ p _ _ =>
      if p = "root" then dirFR ["a.txt", "dir"]
      else if p = "dir" then dirFR ["dir/b.txt", "dir/c.txt"]
      else fileFR (RepositoryContent.mk p)
    cb := fun _ => none
    cancelled := false }

/-- Claim C1, witness: walking `treeT` sequentially succeeds, fetches
`root, a.txt, dir, dir/b.txt, dir/c.txt` in preorder and reports the files
`a.txt, dir/b.txt, dir/c.txt` in that order. -/
theorem C1_sequential_traversal_witness :
    walkURI gwEx envT 3 (Tree.path treeT) 0 = some (none, expTrace gwEx treeT) ∧
    fetchPaths (expTrace gwEx treeT) = preorder treeT ∧
    callbackPaths (expTrace gwEx treeT) = dfsFiles treeT ∧
    (∀ (c : RepositoryContent) (rest : List RepositoryContent) (err : GoErr)
        (tr : List Ev) (n : Nat),
      walkURI gwEx envT n c.path 0 = some (some err, tr) →
      walkDirectoryContents gwEx envT n (c :: rest) = some (some err, tr)) := by
  have hfuel : EnoughFuel 3 treeT := by
    refine EnoughFuel.dir 2 _ _ ?_
    intro c hcm
    simp only [treeT, List.mem_cons, List.not_mem_nil, or_false] at hcm
    rcases hcm with rfl | rfl
    · exact EnoughFuel.file 1 _
    · refine EnoughFuel.dir 1 _ _ ?_
      intro c hcm
      simp only [List.mem_cons, List.not_mem_nil, or_false] at hcm
      rcases hcm with rfl | rfl <;> exact EnoughFuel.file 0 _
  have hrep : Represents envT gwEx treeT := by
    refine Represents.dir _ _ (fun _ => rfl) ?_
    intro c hcm
    simp only [treeT, List.mem_cons, List.not_mem_nil, or_false] at hcm
    rcases hcm with rfl | rfl
    · exact Represents.file _ fun _ => rfl
    · refine Represents.dir _ _ (fun _ => rfl) ?_
      intro c hcm
      simp only [List.mem_cons, List.not_mem_nil, or_false] at hcm
      rcases hcm with rfl | rfl <;> exact Represents.file _ fun _ => rfl
  exact C1_sequential_traversal gwEx envT treeT 3 0 rfl rfl (fun _ => rfl) hfuel hrep

/-- Is the event a fetch request? -/
def isFetchEv : Ev → Bool
  | Ev.fetch _ _ _ _ => true
  | _ => false

/-- Is the event a rate-limit permit acquisition? -/
def isAcquireEv : Ev → Bool
  | Ev.acquire => true
  | _ => false

/-- In every prefix of the trace, at least as many permits have been
acquired as fetches issued: no fetch happens without a preceding permit. -/
def PermitOrdered (tr : List Ev) : Prop :=
  ∀ n, List.countP isFetchEv (List.take n tr) ≤ List.countP isAcquireEv (List.take n tr)

lemma permitOrdered_nil : PermitOrdered [] := by
  intro n
  simp

lemma PermitOrdered.append {a b : List Ev}
    (ha : PermitOrdered a) (hb : PermitOrdered b) : PermitOrdered (a ++ b) := by
  intro n
  rw [List.take_append_eq_append_take]
  simp only [List.countP_append]
  have h1 := ha n
  have h2 := hb (n - a.length)
  omega

lemma PermitOrdered.cons_nonfetch {tr : List Ev} (e : Ev)
    (he : isFetchEv e = false) (h : PermitOrdered tr) : PermitOrdered (e :: tr) := by
  intro n
  cases n with
  | zero => simp
  | succ m =>
    have hm := h m
    by_cases ha : isAcquireEv e = true <;>
      simp [List.countP_cons, he, ha] <;> omega

lemma PermitOrdered.acquire_fetch_cons {tr : List Ev} (o r p : String)
    (opts : Option RepositoryContentGetOptions) (h : PermitOrdered tr) :
    PermitOrdered (Ev.acquire :: Ev.fetch o r p opts :: tr) := by
  intro n
  match n with
  | 0 => simp
  | 1 => simp [isFetchEv, isAcquireEv]
  | m + 2 =>
    have hm := h m
    simp [List.countP_cons, isFetchEv, isAcquireEv]
    omega

lemma permits_walkDir_of_walkURI (gw : GitHubWalker) (env : Env) (fuel : Nat)
    (hP : ∀ uri k res tr, walkURI gw env fuel uri k = some (res, tr) → PermitOrdered tr) :
    ∀ cs res tr, walkDirectoryContents gw env fuel cs = some (res, tr) → PermitOrdered tr := by
  intro cs
  induction cs with
  | nil =>
    intro res tr h
    simp only [walkDirectoryContents, Option.some.injEq, Prod.mk.injEq] at h
    obtain ⟨rfl, rfl⟩ := h
    exact permitOrdered_nil
  | cons e rest ihl =>
    intro res tr h
    by_cases hc : env.cancelled
    · simp only [walkDirectoryContents, hc, if_true, Option.some.injEq, Prod.mk.injEq] at h
      obtain ⟨rfl, rfl⟩ := h
      exact permitOrdered_nil
    · simp only [walkDirectoryContents, hc, if_false, Bool.false_eq_true] at h
      rcases hw : walkURI gw env fuel e.path 0 with _ | ⟨res1, tr1⟩
      · rw [hw] at h
        simp at h
      · rw [hw] at h
        rcases res1 with _ | err
        · rcases hrest : walkDirectoryContents gw env fuel rest with _ | ⟨res2, tr2⟩
          · rw [hrest] at h
            simp at h
          · rw [hrest] at h
            simp only [Option.some.injEq, Prod.mk.injEq] at h
            obtain ⟨rfl, rfl⟩ := h
            exact (hP _ _ _ _ hw).append (ihl _ _ hrest)
        · simp only [Option.some.injEq, Prod.mk.injEq] at h
          obtain ⟨rfl, rfl⟩ := h
          exact hP _ _ _ _ hw

lemma permits_spawn_of_walkURI (gw : GitHubWalker) (env : Env) (fuel : Nat)
    (hP : ∀ uri k res tr, walkURI gw env fuel uri k = some (res, tr) → PermitOrdered tr) :
    ∀ cs evs tr, spawnChildren gw env fuel cs = some (evs, tr) → PermitOrdered tr := by
  intro cs
  induction cs with
  | nil =>
    intro evs tr h
    simp only [spawnChildren, Option.some.injEq, Prod.mk.injEq] at h
    obtain ⟨rfl, rfl⟩ := h
    exact permitOrdered_nil
  | cons e rest ihl =>
    intro evs tr h
    simp only [spawnChildren] at h
    rcases hw : walkURI gw env fuel e.path 0 with _ | ⟨res1, tr1⟩
    · rw [hw] at h
      simp at h
    · rw [hw] at h
      rcases hrest : spawnChildren gw env fuel rest with _ | ⟨evs2, tr2⟩
      · rw [hrest] at h
        simp at h
      · rw [hrest] at h
        simp only [Option.some.injEq, Prod.mk.injEq] at h
        obtain ⟨rfl, rfl⟩ := h
        exact (hP _ _ _ _ hw).append (ihl _ _ hrest)

lemma permits_conc_of_spawn (gw : GitHubWalker) (env : Env) (fuel : Nat)
    (hS : ∀ cs evs tr, spawnChildren gw env fuel cs = some (evs, tr) → PermitOrdered tr) :
    ∀ cs res tr, walkDirectoryContentsConcurrently gw env fuel cs = some (res, tr) →
      PermitOrdered tr := by
  intro cs res tr h
  by_cases hc : env.cancelled
  · simp only [walkDirectoryContentsConcurrently, hc, if_true, Option.some.injEq,
      Prod.mk.injEq] at h
    obtain ⟨rfl, rfl⟩ := h
    exact permitOrdered_nil
  · simp only [walkDirectoryContentsConcurrently, hc, if_false, Bool.false_eq_true] at h
    rcases hsp : spawnChildren gw env fuel cs with _ | ⟨evs, tr2⟩
    · rw [hsp] at h
      simp at h
    · rw [hsp] at h
      dsimp only at h
      rcases hd : drain evs cs.length with _ | r
      · rw [hd] at h
        simp at h
      · rw [hd] at h
        simp only [Option.some.injEq, Prod.mk.injEq] at h
        obtain ⟨rfl, rfl⟩ := h
        exact hS _ _ _ hsp

lemma permits_walkURI_step (gw : GitHubWalker) (env : Env) (m : Nat)
    (ihP : ∀ uri k res tr, walkURI gw env m uri k = some (res, tr) → PermitOrdered tr) :
    ∀ uri k res tr, walkURI gw env (m + 1) uri k = some (res, tr) → PermitOrdered tr := by
  have ihD := permits_walkDir_of_walkURI gw env m ihP
  have ihS := permits_spawn_of_walkURI gw env m ihP
  have ihC := permits_conc_of_spawn gw env m ihS
  intro uri k res tr h
  by_cases hc : env.cancelled
  · simp only [walkURI, hc, if_true, Option.some.injEq, Prod.mk.injEq] at h
    obtain ⟨rfl, rfl⟩ := h
    exact PermitOrdered.cons_nonfetch _ rfl permitOrdered_nil
  · simp only [walkURI, hc, if_false, Bool.false_eq_true] at h
    rcases hfr : env.fetch gw.owner gw.repo uri none k with ⟨fc, dc, R, er⟩
    rw [hfr] at h
    dsimp only at h
    rcases er with _ | e
    · dsimp only at h
      rcases fc with _ | f
      · dsimp only at h
        rcases dc with _ | contents
        · simp only [Option.some.injEq, Prod.mk.injEq] at h
          obtain ⟨rfl, rfl⟩ := h
          exact PermitOrdered.acquire_fetch_cons _ _ _ _ permitOrdered_nil
        · dsimp only at h
          by_cases hcc : gw.concurrent = true
          · rw [if_pos hcc] at h
            rcases hconc : walkDirectoryContentsConcurrently gw env m contents
              with _ | ⟨res2, tr2⟩
            · rw [hconc] at h
              simp at h
            · rw [hconc] at h
              simp only [Option.some.injEq, Prod.mk.injEq] at h
              obtain ⟨rfl, rfl⟩ := h
              simpa using PermitOrdered.acquire_fetch_cons _ _ _ _ (ihC _ _ _ hconc)
          · rw [if_neg hcc] at h
            rcases hdir : walkDirectoryContents gw env m contents with _ | ⟨res2, tr2⟩
            · rw [hdir] at h
              simp at h
            · rw [hdir] at h
              simp only [Option.some.injEq, Prod.mk.injEq] at h
              obtain ⟨rfl, rfl⟩ := h
              simpa using PermitOrdered.acquire_fetch_cons _ _ _ _ (ihD _ _ _ hdir)
      · dsimp only at h
        rcases hcb : env.cb f with _ | e2 <;> rw [hcb] at h <;>
          simp only [Option.some.injEq, Prod.mk.injEq] at h <;>
          obtain ⟨rfl, rfl⟩ := h <;>
          simpa using PermitOrdered.acquire_fetch_cons _ _ _ _
            (PermitOrdered.cons_nonfetch (Ev.callback f) rfl permitOrdered_nil)
    · dsimp only at h
      by_cases hb : (e.isRateLimitError && gw.wait_on_reset) = true
      · rw [if_pos hb] at h
        rcases hw : walkURI gw env m uri (k + 1) with _ | ⟨res2, tr2⟩
        · rw [hw] at h
          simp at h
        · rw [hw] at h
          simp only [Option.some.injEq, Prod.mk.injEq] at h
          obtain ⟨rfl, rfl⟩ := h
          simpa using PermitOrdered.acquire_fetch_cons _ _ _ _
            (PermitOrdered.cons_nonfetch (Ev.sleepUntil R) rfl (ihP _ _ _ _ hw))
      · rw [if_neg hb] at h
        simp only [Option.some.injEq, Prod.mk.injEq] at h
        obtain ⟨rfl, rfl⟩ := h
        exact PermitOrdered.acquire_fetch_cons _ _ _ _ permitOrdered_nil

lemma permits_walkURI (gw : GitHubWalker) (env : Env) :
    ∀ (fuel : Nat) (uri : String) (k : Nat) (res : Option GoErr) (tr : List Ev),
      walkURI gw env fuel uri k = some (res, tr) → PermitOrdered tr := by
  intro fuel
  induction fuel with
  | zero =>
    intro uri k res tr h
    simp [walkURI] at h
  | succ m ihP =>
    exact permits_walkURI_step gw env m fun uri k res tr h => ihP uri k res tr h

lemma walkURI_head (gw : GitHubWalker) (env : Env) (fuel : Nat) (uri : String)
    (k : Nat) (res : Option GoErr) (tr : List Ev)
    (h : walkURI gw env fuel uri k = some (res, tr)) :
    ∃ tl, tr = Ev.acquire :: tl := by
  cases fuel with
  | zero => simp [walkURI] at h
  | succ m =>
    by_cases hc : env.cancelled
    · simp only [walkURI, hc, if_true, Option.some.injEq, Prod.mk.injEq] at h
      exact ⟨[], h.2.symm⟩
    · simp only [walkURI, hc, if_false, Bool.false_eq_true] at h
      rcases hfr : env.fetch gw.owner gw.repo uri none k with ⟨fc, dc, R, er⟩
      rw [hfr] at h
      dsimp only at h
      rcases er with _ | e
      · dsimp only at h
        rcases fc with _ | f
        · dsimp only at h
          rcases dc with _ | contents
          · simp only [Option.some.injEq, Prod.mk.injEq] at h
            exact ⟨_, h.2.symm⟩
          · dsimp only at h
            by_cases hcc : gw.concurrent = true
            · rw [if_pos hcc] at h
              rcases hconc : walkDirectoryContentsConcurrently gw env m contents
                with _ | ⟨res2, tr2⟩
              · rw [hconc] at h
                simp at h
              · rw [hconc] at h
                simp only [Option.some.injEq, Prod.mk.injEq] at h
                exact ⟨_, h.2.symm⟩
            · rw [if_neg hcc] at h
              rcases hdir : walkDirectoryContents gw env m contents with _ | ⟨res2, tr2⟩
              · rw [hdir] at h
                simp at h
              · rw [hdir] at h
                simp only [Option.some.injEq, Prod.mk.injEq] at h
                exact ⟨_, h.2.symm⟩
        · dsimp only at h
          rcases hcb : env.cb f with _ | e2 <;> rw [hcb] at h <;>
            simp only [Option.some.injEq, Prod.mk.injEq] at h <;>
            exact ⟨_, h.2.symm⟩
      · dsimp only at h
        by_cases hb : (e.isRateLimitError && gw.wait_on_reset) = true
        · rw [if_pos hb] at h
          rcases hw : walkURI gw env m uri (k + 1) with _ | ⟨res2, tr2⟩
          · rw [hw] at h
            simp at h
          · rw [hw] at h
            simp only [Option.some.injEq, Prod.mk.injEq] at h
            exact ⟨_, h.2.symm⟩
        · rw [if_neg hb] at h
          simp only [Option.some.injEq, Prod.mk.injEq] at h
          exact ⟨_, h.2.symm⟩

/-- Claim C6: every trace of a `WalkURI` call starts with a permit
acquisition (the blocking receive from the rate limiter, which never errors),
and in every prefix of the trace the number of fetches issued never exceeds
the number of permits acquired: no fetch is performed without a preceding
permit acquisition. -/
theorem C6_permit_before_fetch (gw : GitHubWalker) (env : Env) (fuel : Nat)
    (uri : String) (k : Nat) (res : Option GoErr) (tr : List Ev)
    (h : walkURI gw env fuel uri k = some (res, tr)) :
    (∃ tl, tr = Ev.acquire :: tl) ∧
    ∀ n, List.countP isFetchEv (List.take n tr) ≤
      List.countP isAcquireEv (List.take n tr) :=
  ⟨walkURI_head gw env fuel uri k res tr h, permits_walkURI gw env fuel uri k res tr h⟩

/-- The trace of the sequential walk of `treeT`, written out. -/
def trT : List Ev :=
  [Ev.acquire, Ev.fetch "o" "r" "root" none,
    Ev.acquire, Ev.fetch "o" "r" "a.txt" none,
    Ev.callback (RepositoryContent.mk "a.txt"),
    Ev.acquire, Ev.fetch "o" "r" "dir" none,
    Ev.acquire, Ev.fetch "o" "r" "dir/b.txt" none,
    Ev.callback (RepositoryContent.mk "dir/b.txt"),
    Ev.acquire, Ev.fetch "o" "r" "dir/c.txt" none,
    Ev.callback (RepositoryContent.mk "dir/c.txt")]

/-- Claim C6, witness, on the full walk of the concrete tree `treeT`. -/
theorem C6_permit_before_fetch_witness :
    (∃ tl, trT = Ev.acquire :: tl) ∧
    ∀ n, List.countP isFetchEv (List.take n trT) ≤
      List.countP isAcquireEv (List.take n trT) :=
  C6_permit_before_fetch gwEx envT 3 "root" 0 none trT
    (by simp [walkURI, walkDirectoryContents, envT, gwEx, dirFR, fileFR, trT])

lemma branch_irrelevant (gw : GitHubWalker) (env : Env) (b : String) : ∀ fuel : Nat,
    (∀ uri k, walkURI { gw with branch := b } env fuel uri k =
      walkURI gw env fuel uri k) ∧
    (∀ cs, walkDirectoryContents { gw with branch := b } env fuel cs =
      walkDirectoryContents gw env fuel cs) ∧
    (∀ cs, spawnChildren { gw with branch := b } env fuel cs =
      spawnChildren gw env fuel cs) ∧
    (∀ cs, walkDirectoryContentsConcurrently { gw with branch := b } env fuel cs =
      walkDirectoryContentsConcurrently gw env fuel cs) := by
  intro fuel
  induction fuel with
  | zero =>
    refine ⟨fun uri k => by simp [walkURI], fun cs => ?_, fun cs => ?_, fun cs => ?_⟩
    · induction cs with
      | nil => simp [walkDirectoryContents]
      | cons e rest ihl => simp [walkDirectoryContents, walkURI, ihl]
    · induction cs with
      | nil => simp [spawnChildren]
      | cons e rest ihl => simp [spawnChildren, walkURI, ihl]
    · induction cs with
      | nil => simp [walkDirectoryContentsConcurrently, spawnChildren]
      | cons e rest ihl => simp [walkDirectoryContentsConcurrently, spawnChildren, walkURI]
  | succ m ih =>
    obtain ⟨ihP, ihD, ihS, ihC⟩ := ih
    have hP : ∀ uri k, walkURI { gw with branch := b } env (m + 1) uri k =
        walkURI gw env (m + 1) uri k := by
      intro uri k
      simp only [walkURI, ihP, ihD, ihC]
    have hS : ∀ cs, spawnChildren { gw with branch := b } env (m + 1) cs =
        spawnChildren gw env (m + 1) cs := by
      intro cs
      induction cs with
      | nil => simp [spawnChildren]
      | cons e rest ihl => simp only [spawnChildren, hP, ihl]
    refine ⟨hP, fun cs => ?_, hS, fun cs => ?_⟩
    · induction cs with
      | nil => simp [walkDirectoryContents]
      | cons e rest ihl => simp only [walkDirectoryContents, hP, ihl]
    · simp only [walkDirectoryContentsConcurrently, hS]

/-- Claim C9: the configured repository branch has no effect on the
traversal.  Two walkers agreeing on owner, repository, concurrency flag and
wait-on-reset flag — and differing arbitrarily in `branch` — produce, for
every call, the identical result and the identical event trace: in
particular the very same fetch requests, each carrying `opts = none` (the
`GetContents` call passes `nil` options, so the branch is never sent to the
Content Fetcher). -/
theorem C9_branch_has_no_effect (gw1 gw2 : GitHubWalker) (env : Env)
    (fuel : Nat) (uri : String) (k : Nat)
    (ho : gw1.owner = gw2.owner) (hr : gw1.repo = gw2.repo)
    (hcc : gw1.concurrent = gw2.concurrent)
    (hw : gw1.wait_on_reset = gw2.wait_on_reset) :
    walkURI gw1 env fuel uri k = walkURI gw2 env fuel uri k := by
  have hgw : gw1 = { gw2 with branch := gw1.branch } := by
    cases gw1
    cases gw2
    simp_all
  rw [hgw]
  exact (branch_irrelevant gw2 env gw1.branch fuel).1 uri k

/-- Claim C9, witness: walking with branch `dev` and with the default branch
gives identical results on the concrete tree. -/
theorem C9_branch_has_no_effect_witness :
    walkURI { gwEx with branch := "dev" } envT 3 "root" 0 =
      walkURI gwEx envT 3 "root" 0 :=
  C9_branch_has_no_effect { gwEx with branch := "dev" } gwEx envT 3 "root" 0
    rfl rfl rfl rfl

end GoGithubWalk
